import Mathlib

/-!
Verification of the psilo-vfs core: the path algebra (`src/path.rs`) and the
union-mount engine (`src/vfs.rs`, mirrored by the async `src/data.rs`).

Rust `&str` values are embedded as `List Char` (`Str`); UTF-8 byte order on
`str` coincides with codepoint order, so lexicographic comparison over
`List Char` by codepoint is faithful.  Fallible code returns `Except`/`Option`;
a Rust panic (integer underflow, failed assert) is modelled as the `none` of an
outer `Option`.
-/

namespace PsiloVFS

abbrev Str := List Char

/-- Models Rust `str::starts_with(p)`: `p` is a prefix of `l`. -/
def isPre : Str → Str → Bool
  | [], _ => true
  | _ :: _, [] => false
  | p :: ps, x :: xs => decide (p = x) && isPre ps xs

/-- Models Rust `str::ends_with(p)`: `p` is a suffix of `l`. -/
def isSuf (p l : Str) : Bool := isPre p.reverse l.reverse

/-- Models Rust `str::strip_prefix(p)`. -/
def stripPre? : Str → Str → Option Str
  | [], s => some s
  | _ :: _, [] => none
  | p :: ps, x :: xs => if decide (p = x) then stripPre? ps xs else none

/-- Models Rust `str::trim_end_matches` with the given character predicate. -/
def trimEndM (f : Char → Bool) (l : Str) : Str := (l.reverse.dropWhile f).reverse

/-- Models Rust `str::split(sep)`, which always yields at least one piece and
yields empty pieces between consecutive separators. -/
def splitOnChar (sep : Char) : Str → List Str
  | [] => [[]]
  | c :: rest =>
    if decide (c = sep) then [] :: splitOnChar sep rest
    else match splitOnChar sep rest with
      | [] => [[c]]
      | h :: t => (c :: h) :: t

/-- Models `str::split('/')` as used throughout `path.rs`. -/
def splitSlash (l : Str) : List Str := splitOnChar '/' l

/-- Models Rust `str::strip_prefix(c)` for a single char: removes one leading
`c` if present. -/
def stripLead (c : Char) (l : Str) : Str :=
  match l with
  | [] => []
  | x :: xs => if decide (x = c) then xs else x :: xs

/-- Models Rust `str::strip_suffix(c)` for a single char: removes one trailing
`c` if present. -/
def stripTrail (c : Char) (l : Str) : Str := (stripLead c l.reverse).reverse

/-- Codepoint-wise lexicographic comparison; models the derived `Ord` on the
Rust `Path`/`PathBuf` (byte order on UTF-8, equal to codepoint order). -/
def compareStr : Str → Str → Ordering
  | [], [] => .eq
  | [], _ :: _ => .lt
  | _ :: _, [] => .gt
  | x :: xs, y :: ys =>
    if decide (x < y) then .lt else if decide (y < x) then .gt else compareStr xs ys

/-- Models `Path::is_absolute` (`src/path.rs:299`): begins with `/`. -/
def isAbsolute (p : Str) : Bool := decide (p.head? = some '/')

/-- Models `Path::is_directory` (`src/path.rs:309`): ends with `/` or is
empty. -/
def isDirectory (p : Str) : Bool := decide (p.getLast? = some '/') || decide (p = [])

/-- Models `Path::components` (`src/path.rs:319`): strip one leading and one
trailing `/`, then split the interior on `/`; the empty interior has zero
components. -/
def components (p : Str) : List Str :=
  let s := stripTrail '/' (stripLead '/' p)
  if decide (s = []) then [] else splitSlash s

/-- Models `Path::parent` (`src/path.rs:331`): trim all trailing `/`, then trim
trailing non-`/` characters. -/
def parent (p : Str) : Str :=
  trimEndM (fun c => decide (c ≠ '/')) (trimEndM (fun c => decide (c = '/')) p)

/-- Models `Path::extension` (`src/path.rs:338`): `split('.').last()` of the
final component, if any. -/
def extension (p : Str) : Option Str :=
  match (components p).getLast? with
  | some comp => (splitOnChar '.' comp).getLast?
  | none => none

/-- Models `Path::with_prefix_absolute` (`src/path.rs:354`).  The Rust indexes
`other.inner[..other.inner.len()-1]`; for `other == ""` the `usize`
subtraction underflows and the call panics, modelled here by the outer `none`.
The `is_directory` guard runs first, exactly as in the source. -/
def withPrefixAbsolute (s o : Str) : Option (Option Str) :=
  if !isDirectory o then some none
  else if decide (o = []) then none
  else some (match stripPre? o.dropLast s with
    | none => none
    | some x => if decide (x.head? = some '/') then some x else none)

/-- Spec §4.1 `with_prefix_absolute`, as the spec words it: defined only when
`other` is a directory path; if `self` begins with `other` minus its trailing
`/` and the boundary character is `/`, the remainder is returned.  Total (the
spec describes no panic); used as the spec-side form in refinement proofs. -/
def wpaSpec (s o : Str) : Option Str :=
  if !isDirectory o then none
  else match stripPre? o.dropLast s with
    | none => none
    | some x => if decide (x.head? = some '/') then some x else none

/-- Error taxonomy of `Path::try_from_str` (`src/path.rs:17`). -/
inductive PathFromStrError where
  | doubleSlash
  | invalidStartChar
  | invalidEndChar
  | invalidChar
  | reservedName
  | escapedRoot
  | dotDotFile
deriving DecidableEq, Repr

/-- Models regex `^\.` (`INVALID_PATH_PREFIX_CHAR_PATTERN`, `src/path.rs:87`). -/
def startsBad (c : Str) : Bool := decide (c.head? = some '.')

/-- Models regex `[. ~^!]$` (`INVALID_PATH_SUFFIX_CHAR_PATTERN`,
`src/path.rs:91`). -/
def endsBad (c : Str) : Bool :=
  match c.getLast? with
  | some ch =>
    decide (ch = '.') || decide (ch = ' ') || decide (ch = '~') ||
    decide (ch = '^') || decide (ch = '!')
  | none => false

/-- Character class of `INVALID_PATH_CHAR_PATTERN` (`src/path.rs:95`):
C0/C1 controls and the forbidden punctuation. -/
def badChar (c : Char) : Bool :=
  decide (c.toNat ≤ 0x1F) ||
  (decide (0x80 ≤ c.toNat) && decide (c.toNat ≤ 0x9F)) ||
  decide (c ∈ ['"', '*', '/', ':', '?', '\\', '<', '>', '|'])

/-- Models regex matching of `INVALID_PATH_CHAR_PATTERN` on a component. -/
def hasBadChar (c : Str) : Bool := c.any badChar

/-- ASCII upper-casing; models the `(?i:...)` fold for the reserved names,
which are all ASCII. -/
def upAscii (c : Char) : Char :=
  if decide ('a' ≤ c) && decide (c ≤ 'z') then Char.ofNat (c.toNat - 32) else c

/-- The alternation of `INVALID_PATH_NAME_PATTERN` (`src/path.rs:99`):
`AUX|COM[1-9]|CON|LPT[1-9]|NUL|PRN`. -/
def reservedRoots : List Str :=
  ["AUX".data, "CON".data, "NUL".data, "PRN".data,
   "COM1".data, "COM2".data, "COM3".data, "COM4".data, "COM5".data,
   "COM6".data, "COM7".data, "COM8".data, "COM9".data,
   "LPT1".data, "LPT2".data, "LPT3".data, "LPT4".data, "LPT5".data,
   "LPT6".data, "LPT7".data, "LPT8".data, "LPT9".data]

/-- Models `INVALID_PATH_NAME_PATTERN.is_match`: a reserved root at the start,
case-insensitively, followed by `.` or the end of the component. -/
def isReserved (c : Str) : Bool :=
  let u := c.map upAscii
  reservedRoots.any (fun r =>
    decide (u.take r.length = r) &&
    (decide (u.length = r.length) || decide ((u.drop r.length).head? = some '.')))

/-- Modelled from the unicode-normalization crate (an external dependency,
not part of this repository): `decompose_canonical`.  A finite canonical
decomposition table sufficient for this development — U+00E9 decomposes to
`e` followed by U+0301; every other character is decomposition-fixed. -/
def decomposeChar (c : Char) : List Char :=
  if decide (c = Char.ofNat 0xE9) then [Char.ofNat 0x65, Char.ofNat 0x301]
  else [c]

/-- Canonical decomposition of a whole component, as the loop at
`src/path.rs:284` does character by character. -/
def decomposeStr : Str → Str
  | [] => []
  | c :: rest => decomposeChar c ++ decomposeStr rest

/-- Modelled from the unicode-normalization crate: `is_nfd_quick(...) == Yes`
holds exactly when every character is decomposition-fixed in the model. -/
def nfdQuickYes (s : Str) : Bool := s.all (fun c => decide (decomposeChar c = [c]))

/-- The component-validation loop of `Path::try_from_str`
(`src/path.rs:227-251`), carrying the `need_edit` and
`any_non_dotdot_components` flags; returns the final `need_edit`. -/
def validateComps : List Str → Bool → Bool → Except PathFromStrError Bool
  | [], needEdit, _ => .ok needEdit
  | comp :: rest, needEdit, anyNon =>
    if decide (comp = ".".data) then validateComps rest true anyNon
    else if decide (comp = "..".data) then
      validateComps rest (needEdit || anyNon) anyNon
    else if startsBad comp then .error .invalidStartChar
    else if endsBad comp then .error .invalidEndChar
    else if hasBadChar comp then .error .invalidChar
    else if isReserved comp then .error .reservedName
    else validateComps rest needEdit true

/-- The `..` component pop at `src/path.rs:271-280`: drop the trailing `/`,
then drop trailing non-`/` characters. -/
def popComp (r : Str) : Str := trimEndM (fun c => decide (c ≠ '/')) r.dropLast

/-- The canonical-form building loop of `Path::try_from_str`
(`src/path.rs:261-289`). -/
def buildLoop : List Str → Str → Except PathFromStrError Str
  | [], ret => .ok ret
  | comp :: rest, ret =>
    if decide (comp = ".".data) then buildLoop rest ret
    else if decide (comp = "..".data) then
      if decide (ret = []) || isSuf "../".data ret then
        buildLoop rest (ret ++ "../".data)
      else if decide (ret = ['/']) then .error .escapedRoot
      else buildLoop rest (popComp ret)
    else buildLoop rest (ret ++ decomposeStr comp ++ ['/'])

/-- Models `Path::try_from_str` (`src/path.rs:212-294`): fast paths, the
`//`/`..` guards, component validation over the stripped interior, the
NFD quick check, and the canonical rebuild.  Returns the canonical text. -/
def tryFromStr (s : Str) : Except PathFromStrError Str :=
  if decide (s = []) || decide (s = ['/']) then .ok s
  else if decide (s = "//".data) then .error .doubleSlash
  else if isSuf "/..".data s || decide (s = "..".data) then .error .dotDotFile
  else
    let subset := stripTrail '/' (stripLead '/' s)
    let comps := splitSlash subset
    match validateComps comps false false with
    | .error e => .error e
    | .ok needEdit0 =>
      if needEdit0 || !nfdQuickYes s then
        match buildLoop comps (if isAbsolute s then ['/'] else []) with
        | .error e => .error e
        | .ok ret =>
          .ok (if decide (s.getLast? = some '/') then ret else ret.dropLast)
      else .ok s

/-! ## The union-mount engine (`src/vfs.rs`; `src/data.rs` is its async twin)

`io::ErrorKind` is modelled by the kinds the engine distinguishes plus
representatives for "any other error"; the message attached to
`ErrorKind::Other` errors is dropped.  File handles are modelled by the
identity of the opened content (a `Str` label).  A Rust panic inside the
traversal (the `with_prefix_absolute` underflow, the `make_file_into_dir`
assert) is the `none` of the outer `Option`. -/

inductive ErrKind where
  | notFound
  | isADirectory
  | notADirectory
  | readOnlyFilesystem
  | permissionDenied
  | other
deriving DecidableEq, Repr

/-- A backing source: the `VFSSource` trait (`src/vfs.rs:10`), with `DataVFSSource`
(`src/data.rs:16`) providing the same `open`/`ls` contract. -/
structure VSource where
  openF : Str → Except ErrKind Str
  lsF : Str → Except ErrKind (List Str)
  updateF : Str → List Nat → Except ErrKind Unit

abbrev Mounts := List (Str × VSource)

/-- Models `VFS::mount` (`src/vfs.rs:55`): reject non-absolute (Other) and
non-directory (NotADirectory) mount points, else append to the table. -/
def vfsMount (ms : Mounts) (point : Str) (src : VSource) : Except ErrKind Mounts :=
  if !isAbsolute point then .error .other
  else if !isDirectory point then .error .notADirectory
  else .ok (ms ++ [(point, src)])

/-- The mount loop of `VFS::open` (`src/vfs.rs:79-90`), already given the
reversed table (the Rust iterates `mounts.iter().rev()`). -/
def openGo (path : Str) : Mounts → Option (Except ErrKind Str)
  | [] => some (.error .notFound)
  | (pt, src) :: rest =>
    match withPrefixAbsolute path pt with
    | none => none
    | some none => openGo path rest
    | some (some sfx) =>
      match src.openF sfx with
      | .ok h => some (.ok h)
      | .error .notFound => openGo path rest
      | .error e => some (.error e)

/-- Models `VFS::open` (`src/vfs.rs:69`) / `DataVFS::open` (`src/data.rs:61`). -/
def vfsOpen (ms : Mounts) (path : Str) : Option (Except ErrKind Str) :=
  if !isAbsolute path then some (.error .other)
  else if isDirectory path then some (.error .isADirectory)
  else openGo path ms.reverse

/-- The mount loop of `VFS::update` (`src/vfs.rs:196-205`): only
ReadOnlyFilesystem falls through; any other terminal result is returned. -/
def updateGo (path : Str) (data : List Nat) : Mounts → Option (Except ErrKind Unit)
  | [] => some (.error .readOnlyFilesystem)
  | (pt, src) :: rest =>
    match withPrefixAbsolute path pt with
    | none => none
    | some none => updateGo path data rest
    | some (some sfx) =>
      match src.updateF sfx data with
      | .error .readOnlyFilesystem => updateGo path data rest
      | r => some r

/-- Models `VFS::update` (`src/vfs.rs:186`). -/
def vfsUpdate (ms : Mounts) (path : Str) (data : List Nat) :
    Option (Except ErrKind Unit) :=
  if !isAbsolute path then some (.error .other)
  else if isDirectory path then some (.error .isADirectory)
  else updateGo path data ms.reverse

/-- The accumulator threaded through the `VFS::ls` mount loop: the collected
entries and the `any_succeeded` / `failed_with_not_dir` flags
(`src/vfs.rs:105-107`). -/
structure LsState where
  acc : List Str
  anySucceeded : Bool
  failedNotDir : Bool

/-- The descent case of the `VFS::ls` loop (`src/vfs.rs:111-127`): list the
source under the suffix, appending on success, skipping NotFound, recording
NotADirectory, surfacing anything else. -/
def lsDescend (src : VSource) (sfxOpt : Option Str) (st : LsState) :
    Except ErrKind LsState :=
  match sfxOpt with
  | none => .ok st
  | some sfx =>
    match src.lsF sfx with
    | .ok x => .ok ⟨st.acc ++ x, true, st.failedNotDir⟩
    | .error .notFound => .ok st
    | .error .notADirectory => .ok ⟨st.acc, st.anySucceeded, true⟩
    | .error e => .error e

/-- The ascent case of the `VFS::ls` loop (`src/vfs.rs:130-146`): when the
mount point lies below the listed path, push the first component of the
remainder as a directory entry.  `PathBuf::make_file_into_dir`
(`src/path.rs:550`) asserts the component is not already a directory; that
assert firing is the panic `none`. -/
def lsAscend (sfxOpt : Option Str) (st : LsState) : Option LsState :=
  match sfxOpt with
  | none => some st
  | some sfx =>
    match (components sfx).head? with
    | none => some st
    | some c =>
      if isDirectory c then none
      else some ⟨st.acc ++ [c ++ ['/']], true, st.failedNotDir⟩

/-- The full mount loop of `VFS::ls` (`src/vfs.rs:109-147`): forward over the
table, descent case then ascent case for each mount. -/
def lsGo (path : Str) : Mounts → LsState → Option (Except ErrKind LsState)
  | [], st => some (.ok st)
  | (pt, src) :: rest, st =>
    match withPrefixAbsolute path pt with
    | none => none
    | some ds =>
      match lsDescend src ds st with
      | .error e => some (.error e)
      | .ok st1 =>
        match withPrefixAbsolute pt path with
        | none => none
        | some as2 =>
          match lsAscend as2 st1 with
          | none => none
          | some st2 => lsGo path rest st2

/-- The second branch of the `VFS::ls` sort comparator (`src/vfs.rs:163`):
`b.is_directory() && a == b[..b.len()-1]`.  On the empty (directory-typed)
entry the `usize` subtraction in the index underflows and the comparison
panics: the `none`. -/
def lsCmpTail (a b : Str) : Option Ordering :=
  if isDirectory b then
    if decide (b = []) then none
    else if decide (a = b.dropLast) then some .gt
    else some (compareStr a b)
  else some (compareStr a b)

/-- The tie-breaking comparator passed to `result.sort_by` in `VFS::ls`
(`src/vfs.rs:159-169`): a directory entry sorts strictly before the file entry
of the same name; otherwise codepoint order.  Mirrors the Rust short-circuit
evaluation order: `a[..a.len()-1]` is indexed first, so an empty `a`
(directory-typed) panics there (`none`); the slice of `b` is only reached
when the first condition fails. -/
def lsCmp (a b : Str) : Option Ordering :=
  if isDirectory a then
    if decide (a = []) then none
    else if decide (b = a.dropLast) then some .lt
    else lsCmpTail a b
  else lsCmpTail a b

/-- One step of Rust's insertion sort (`shift_tail`): insert `x` into the
reversed already-processed prefix, moving it left while
`is_less(x, predecessor)` — i.e. while the comparator on `(x, predecessor)`
answers `Less` — propagating a comparator panic. -/
def insRev (x : Str) : List Str → Option (List Str)
  | [] => some [x]
  | e :: rest =>
    match lsCmp x e with
    | none => none
    | some o =>
      if decide (o = Ordering.lt) then
        match insRev x rest with
        | none => none
        | some r => some (e :: r)
      else some (x :: e :: rest)

/-- The insertion-sort loop: fold the slice left to right, keeping the
processed prefix reversed. -/
def sortFold : List Str → List Str → Option (List Str)
  | [], acc => some acc.reverse
  | x :: xs, acc =>
    match insRev x acc with
    | none => none
    | some acc2 => sortFold xs acc2

/-- Models `result.sort_by(...)` in `VFS::ls`.  Rust's stable sort runs plain
insertion sort for slices of at most 20 elements (`MAX_INSERTION`), performing
exactly the comparisons `insRev` performs; longer slices take the merge path,
which this development does not model — that unmodelled region is the same
abstention value `none` as a panic, so no theorem can claim anything about
it. -/
def sortByRust (l : List Str) : Option (List Str) :=
  if decide (l.length ≤ 20) then sortFold l [] else none

/-- The `same_bucket` closure passed to `result.dedup_by` in `VFS::ls`
(`src/vfs.rs:170-178`): drop `next` when it equals the retained predecessor,
or when the retained predecessor is the directory form of the file `next`.
The directory-form test indexes `first[..first.len()-1]`, which panics
(`none`) when the retained predecessor is the empty entry. -/
def dedupSame (next pred : Str) : Option Bool :=
  if decide (next = pred) then some true
  else if isDirectory pred && !isDirectory next then
    if decide (pred = []) then none
    else some (decide (pred.dropLast = next))
  else some false

/-- The tail of `Vec::dedup_by`: `pred` is the most recently retained
element; a panic of the closure propagates. -/
def dedupGo (pred : Str) : List Str → Option (List Str)
  | [] => some []
  | y :: ys =>
    match dedupSame y pred with
    | none => none
    | some true => dedupGo pred ys
    | some false =>
      match dedupGo y ys with
      | none => none
      | some r => some (y :: r)

/-- Models `result.dedup_by(...)` in `VFS::ls`. -/
def dedupByRust : List Str → Option (List Str)
  | [] => some []
  | x :: xs =>
    match dedupGo x xs with
    | none => none
    | some r => some (x :: r)

/-- Models `VFS::ls` (`src/vfs.rs:93`) / `DataVFS::ls` (`src/data.rs:85`):
guards, the mount loop, the sticky NotADirectory flag, and the final
sort-and-dedup (whose panics, and the unmodelled beyond-insertion-sort
region, surface as the outer `none`). -/
def vfsLs (ms : Mounts) (path : Str) : Option (Except ErrKind (List Str)) :=
  if !isAbsolute path then some (.error .other)
  else if !isDirectory path then some (.error .other)
  else
    match lsGo path ms ⟨[], false, false⟩ with
    | none => none
    | some (.error e) => some (.error e)
    | some (.ok st) =>
      if !st.anySucceeded then
        if st.failedNotDir then some (.error .notADirectory)
        else some (.error .notFound)
      else
        match sortByRust st.acc with
        | none => none
        | some sorted =>
          match dedupByRust sorted with
          | none => none
          | some dd => some (.ok dd)

/-! ## Spec-side descriptions (for the refinement claims)

These definitions follow the wording of spec §4.5, not the code: `open` and
`update` resolve to the first decisive mount, newest first. -/

/-- Spec §4.5 `open`: a mount is decisive when its point claims the path and
the delegated open does not report NotFound. -/
def openDecisive (path : Str) (m : Str × VSource) : Option (Except ErrKind Str) :=
  match wpaSpec path m.1 with
  | none => none
  | some sfx =>
    match m.2.openF sfx with
    | .ok h => some (.ok h)
    | .error .notFound => none
    | .error e => some (.error e)

/-- Spec §4.5 `open(path)`: require an absolute file path, then the first
decisive mount newest-first, defaulting to NotFound. -/
def openPerSpec (ms : Mounts) (path : Str) : Option (Except ErrKind Str) :=
  if !isAbsolute path then some (.error .other)
  else if isDirectory path then some (.error .isADirectory)
  else some ((ms.reverse.findSome? (openDecisive path)).getD (.error .notFound))

/-- Spec §4.5 `update`: a mount is decisive when its point claims the path and
the delegated update does not report ReadOnlyFilesystem. -/
def updateDecisive (path : Str) (data : List Nat) (m : Str × VSource) :
    Option (Except ErrKind Unit) :=
  match wpaSpec path m.1 with
  | none => none
  | some sfx =>
    match m.2.updateF sfx data with
    | .error .readOnlyFilesystem => none
    | r => some r

/-- Spec §4.5 `update(path, bytes)`: same traversal as `open`, falling through
only on ReadOnlyFilesystem, defaulting to ReadOnlyFilesystem. -/
def updatePerSpec (ms : Mounts) (path : Str) (data : List Nat) :
    Option (Except ErrKind Unit) :=
  if !isAbsolute path then some (.error .other)
  else if isDirectory path then some (.error .isADirectory)
  else some ((ms.reverse.findSome? (updateDecisive path data)).getD
    (.error .readOnlyFilesystem))

/-- Spec §4.2/§100 `parent`, as the spec words it: strip the trailing `/` run,
then strip back to the previous `/`, retaining it. -/
def parentSpec (p : Str) : Str :=
  ((p.reverse.dropWhile (fun c => decide (c = '/'))).dropWhile
    (fun c => decide (c ≠ '/'))).reverse

/-! ## Concrete mount tables for the scenario claims -/

/-- A read-only source holding `/bar/baz` and `/foo`; scenario S5's source A. -/
def srcA5 : VSource where
  openF := fun p =>
    if decide (p = "/foo".data) then .ok "foo from A".data else .error .notFound
  lsF := fun p =>
    if decide (p = "/".data) then .ok ["bar/".data, "foo".data]
    else if decide (p = "/bar/".data) then .ok ["baz".data]
    else .error .notFound
  updateF := fun _ _ => .error .readOnlyFilesystem

/-- A read-only source holding `/bar/bang`; scenario S5's source B, to be
mounted at `/plugins/fnord/`. -/
def srcB5 : VSource where
  openF := fun p =>
    if decide (p = "/bar/bang".data) then .ok "bang from B".data else .error .notFound
  lsF := fun p =>
    if decide (p = "/".data) then .ok ["bar/".data]
    else if decide (p = "/bar/".data) then .ok ["bang".data]
    else .error .notFound
  updateF := fun _ _ => .error .readOnlyFilesystem

/-- Scenario S5's mount table: A at `/`, then B at `/plugins/fnord/`. -/
def s5Mounts : Mounts := [("/".data, srcA5), ("/plugins/fnord/".data, srcB5)]

/-- Source A of the open scenario: contains the file `/foo`. -/
def srcOpenA : VSource where
  openF := fun p =>
    if decide (p = "/foo".data) then .ok "foo from A".data else .error .notFound
  lsF := fun _ => .error .notFound
  updateF := fun _ _ => .error .readOnlyFilesystem

/-- Source B of the open scenario: also contains the file `/foo`. -/
def srcOpenB : VSource where
  openF := fun p =>
    if decide (p = "/foo".data) then .ok "foo from B".data else .error .notFound
  lsF := fun _ => .error .notFound
  updateF := fun _ _ => .error .readOnlyFilesystem

/-- The open scenario's table: A then B, both at `/`. -/
def openABMounts : Mounts := [("/".data, srcOpenA), ("/".data, srcOpenB)]

/-- A source whose local listing of `/` returns the names `X`, `X-` and `X/`
together — all legal single-component entries. -/
def srcXCollide : VSource where
  openF := fun _ => .error .notFound
  lsF := fun p =>
    if decide (p = "/".data) then .ok ["X".data, "X-".data, "X/".data]
    else .error .notFound
  updateF := fun _ _ => .error .readOnlyFilesystem

/-- The collision scenario's table: the colliding source mounted at `/`. -/
def xMounts : Mounts := [("/".data, srcXCollide)]

/-- A source that reports NotFound on update of anything. -/
def srcUpdNF : VSource where
  openF := fun _ => .error .notFound
  lsF := fun _ => .error .notFound
  updateF := fun _ _ => .error .notFound

/-- A read-only source (updates always ReadOnlyFilesystem). -/
def srcUpdRO : VSource where
  openF := fun _ => .error .notFound
  lsF := fun _ => .error .notFound
  updateF := fun _ _ => .error .readOnlyFilesystem

/-- The update scenario's table: the NotFound source mounted first, the
read-only source mounted last (so tried first). -/
def updMounts : Mounts := [("/".data, srcUpdNF), ("/".data, srcUpdRO)]

/-- No two adjacent `/` characters (invariant 1 of a valid path); the
well-formedness of mount points used by the listing theorems. -/
def noDS : Str → Bool
  | [] => true
  | [_] => true
  | a :: b :: rest => !(decide (a = '/') && decide (b = '/')) && noDS (b :: rest)

/-- A well-formed mount point for the listing theorems: absolute (hence
nonempty) with no adjacent slashes.  Every mount point accepted by `mount` and
built from a valid `PathBuf` satisfies this. -/
abbrev GoodPt (pt : Str) : Prop := isAbsolute pt = true ∧ noDS pt = true

/-! ## Helper lemmas -/

/-- An element reported by `head?` is a member. -/
theorem head?_mem {α : Type} : ∀ {l : List α} {a : α}, l.head? = some a → a ∈ l
  | [], _, h => by simp at h
  | x :: xs, a, h => by
    simp at h
    exact h ▸ List.mem_cons_self _ _

/-- An element reported by `getLast?` is a member. -/
theorem getLast?_mem {α : Type} : ∀ {l : List α} {a : α}, l.getLast? = some a → a ∈ l
  | [], _, h => by simp at h
  | [x], a, h => by
    simp at h
    exact h ▸ List.mem_cons_self _ _
  | x :: y :: r, a, h => by
    rw [List.getLast?_cons_cons] at h
    exact List.mem_cons_of_mem _ (getLast?_mem h)

/-- A nonempty slash-free string is file-typed. -/
theorem isDirectory_false_of {c : Str} (h1 : c ≠ []) (h2 : '/' ∉ c) :
    isDirectory c = false := by
  unfold isDirectory
  simp only [h1, decide_False, Bool.or_false, decide_eq_false_iff_not]
  intro hl
  exact h2 (getLast?_mem hl)

/-- Appending a slash yields a directory-typed name. -/
theorem isDirectory_concat_slash (c : Str) : isDirectory (c ++ ['/']) = true := by
  unfold isDirectory
  simp [List.getLast?_concat]

/-- `stripPre?` succeeding means the input decomposes as the prefix plus the
remainder. -/
theorem stripPre?_eq : ∀ (p s x : Str), stripPre? p s = some x → s = p ++ x
  | [], s, x, h => by
    cases h
    rfl
  | _ :: _, [], x, h => Option.noConfusion h
  | p :: ps, y :: ys, x, h => by
    unfold stripPre? at h
    by_cases he : p = y
    · subst he
      rw [if_pos (by simp)] at h
      rw [stripPre?_eq ps ys x h]
      rfl
    · rw [if_neg (by simpa using he)] at h
      exact Option.noConfusion h

/-- `noDS` passes to the tail. -/
theorem noDS_tail : ∀ (x : Char) (l : Str), noDS (x :: l) = true → noDS l = true
  | _, [], _ => rfl
  | x, y :: r, h => by
    rw [noDS, Bool.and_eq_true] at h
    exact h.2

/-- `noDS` passes to any suffix. -/
theorem noDS_append_right : ∀ (a b : Str), noDS (a ++ b) = true → noDS b = true
  | [], _, h => h
  | x :: a', b, h => noDS_append_right a' b (noDS_tail x (a' ++ b) h)

/-- A success of the spec-side `with_prefix_absolute` starts with `/`. -/
theorem wpaSpec_head {s o x : Str} (h : wpaSpec s o = some x) : x.head? = some '/' := by
  unfold wpaSpec at h
  by_cases hd : isDirectory o
  · rw [hd] at h
    simp only [Bool.not_true, Bool.false_eq_true, if_false] at h
    cases hp : stripPre? o.dropLast s with
    | none => rw [hp] at h; exact Option.noConfusion h
    | some y =>
      simp only [hp] at h
      by_cases hy : y.head? = some '/'
      · rw [if_pos (by simp [hy])] at h
        cases h
        exact hy
      · rw [if_neg (by simp [hy])] at h
        exact Option.noConfusion h
  · simp only [Bool.not_eq_true] at hd
    rw [hd] at h
    simp at h

/-- A success of the spec-side `with_prefix_absolute` splits the path at the
prefix. -/
theorem wpaSpec_strip {s o x : Str} (h : wpaSpec s o = some x) :
    s = o.dropLast ++ x := by
  unfold wpaSpec at h
  by_cases hd : isDirectory o
  · rw [hd] at h
    simp only [Bool.not_true, Bool.false_eq_true, if_false] at h
    cases hp : stripPre? o.dropLast s with
    | none => rw [hp] at h; exact Option.noConfusion h
    | some y =>
      simp only [hp] at h
      by_cases hy : y.head? = some '/'
      · rw [if_pos (by simp [hy])] at h
        cases h
        exact stripPre?_eq _ _ _ hp
      · rw [if_neg (by simp [hy])] at h
        exact Option.noConfusion h
  · simp only [Bool.not_eq_true] at hd
    rw [hd] at h
    simp at h

/-- `splitOnChar` always yields at least one piece. -/
theorem splitOnChar_ne_nil (sep : Char) : ∀ l : Str, splitOnChar sep l ≠ []
  | [] => by simp [splitOnChar]
  | c :: rest => by
    unfold splitOnChar
    by_cases hc : c = sep
    · simp [hc]
    · simp only [hc, decide_False, Bool.false_eq_true, if_false]
      cases hr : splitOnChar sep rest with
      | nil => exact absurd hr (splitOnChar_ne_nil sep rest)
      | cons h t => simp

/-- Pieces of `splitOnChar` never contain the separator. -/
theorem splitOnChar_no_sep (sep : Char) :
    ∀ (l : Str) (p : Str), p ∈ splitOnChar sep l → sep ∉ p
  | [], p, h => by
    simp [splitOnChar] at h
    subst h
    simp
  | c :: rest, p, h => by
    unfold splitOnChar at h
    by_cases hc : c = sep
    · simp only [hc, decide_True, if_true] at h
      rcases List.mem_cons.mp h with rfl | h2
      · simp
      · exact splitOnChar_no_sep sep rest p h2
    · simp only [hc, decide_False, Bool.false_eq_true, if_false] at h
      cases hr : splitOnChar sep rest with
      | nil => exact absurd hr (splitOnChar_ne_nil sep rest)
      | cons hd tl =>
        rw [hr] at h
        have hhd : hd ∈ splitOnChar sep rest := by
          rw [hr]; exact List.mem_cons_self _ _
        rcases List.mem_cons.mp h with rfl | htl
        · intro hmem
          rcases List.mem_cons.mp hmem with he | hmem2
          · exact hc he.symm
          · exact (splitOnChar_no_sep sep rest hd hhd) hmem2
        · have : p ∈ splitOnChar sep rest := by
            rw [hr]; exact List.mem_cons_of_mem _ htl
          exact splitOnChar_no_sep sep rest p this

/-- The first piece of splitting a string that starts with a non-separator
begins with that character. -/
theorem splitOnChar_head_cons (sep x : Char) (r : Str) (hx : x ≠ sep) :
    ∃ h, (splitOnChar sep (x :: r)).head? = some (x :: h) := by
  unfold splitOnChar
  simp only [hx, decide_False, Bool.false_eq_true, if_false]
  cases hr : splitOnChar sep r with
  | nil => exact absurd hr (splitOnChar_ne_nil sep r)
  | cons hd tl => exact ⟨hd, by simp⟩

/-- `trim_end` with a single character either leaves the string or removes
its final element. -/
theorem stripTrail_cases (c : Char) (l : Str) :
    stripTrail c l = l ∨ stripTrail c l = l.dropLast := by
  cases hr : l.reverse with
  | nil =>
    have hl : l = [] := List.reverse_eq_nil_iff.mp hr
    subst hl
    exact Or.inl rfl
  | cons x xs =>
    have hl : l = xs.reverse ++ [x] := by
      have h2 := congrArg List.reverse hr
      rw [List.reverse_reverse, List.reverse_cons] at h2
      exact h2
    by_cases hx : x = c
    · refine Or.inr ?_
      rw [stripTrail, hr, stripLead]
      simp only [hx, decide_True, if_true]
      rw [hl, List.dropLast_concat]
    · refine Or.inl ?_
      rw [stripTrail, hr, stripLead]
      simp only [hx, decide_False, Bool.false_eq_true, if_false]
      rw [hl, List.reverse_cons]

/-- `dropLast` preserves the head when the result is nonempty. -/
theorem head?_dropLast_of_ne_nil : ∀ l : Str, l.dropLast ≠ [] → l.dropLast.head? = l.head?
  | [], h => by simp at h
  | [_], h => by simp at h
  | _ :: _ :: _, _ => by simp

/-- The first component of a slash-initial, double-slash-free path is a
nonempty slash-free name. -/
theorem components_head_good {sfx c : Str} (hnd : noDS sfx = true)
    (hh : sfx.head? = some '/') ( hc : (components sfx).head? = some c) :
    c ≠ [] ∧ '/' ∉ c := by
  cases sfx with
  | nil => simp at hh
  | cons a t =>
    have ha : a = '/' := by simpa using hh
    subst ha
    have hsl : stripLead '/' ('/' :: t) = t := by simp [stripLead]
    rw [components, hsl] at hc
    by_cases hs : stripTrail '/' t = []
    · simp [hs] at hc
    · simp only [hs, decide_False, Bool.false_eq_true, if_false] at hc
      cases t with
      | nil => exact absurd rfl hs
      | cons b t' =>
        have hb : b ≠ '/' := by
          intro hbb
          subst hbb
          simp [noDS] at hnd
        have hhead : (stripTrail '/' (b :: t')).head? = some b := by
          rcases stripTrail_cases '/' (b :: t') with he | he
          · rw [he]; rfl
          · rw [he]
            rw [head?_dropLast_of_ne_nil (b :: t') (by rw [← he]; exact hs)]
            rfl
        obtain ⟨rest, hrest⟩ : ∃ rest, stripTrail '/' (b :: t') = b :: rest := by
          cases hst : stripTrail '/' (b :: t') with
          | nil => exact absurd hst hs
          | cons z zs =>
            rw [hst] at hhead
            simp at hhead
            exact ⟨zs, by rw [hhead]⟩
        rw [hrest] at hc
        obtain ⟨h2, hhc⟩ := splitOnChar_head_cons '/' b rest hb
        rw [splitSlash, hhc] at hc
        have hceq : c = b :: h2 := (Option.some_inj.mp hc).symm
        subst hceq
        refine ⟨by simp, ?_⟩
        exact splitOnChar_no_sep '/' (b :: rest) (b :: h2) (head?_mem hhc)

/-! ## Behaviour of the sort and dedup of `ls` on nonempty entries

The comparator and the dedup closure index `entry[..entry.len()-1]` and so
panic on empty entries; the lemmas below show the panic is unreachable when
every entry is nonempty (the §4.3 source contract: listings are
single-component paths), and that directory entries survive. -/

/-- The comparator's second branch answers on a nonempty `b`. -/
theorem lsCmpTail_some (a b : Str) (hb : b ≠ []) : ∃ o, lsCmpTail a b = some o := by
  unfold lsCmpTail
  by_cases hd : isDirectory b
  · rw [if_pos hd, if_neg (by simp [hb])]
    by_cases he : a = b.dropLast
    · exact ⟨.gt, by rw [if_pos (by simp [he])]⟩
    · exact ⟨compareStr a b, by rw [if_neg (by simp [he])]⟩
  · exact ⟨compareStr a b, by rw [if_neg hd]⟩

/-- The comparator answers (does not panic) on nonempty entries. -/
theorem lsCmp_some (a b : Str) (ha : a ≠ []) (hb : b ≠ []) :
    ∃ o, lsCmp a b = some o := by
  unfold lsCmp
  by_cases hd : isDirectory a
  · rw [if_pos hd, if_neg (by simp [ha])]
    by_cases he : b = a.dropLast
    · exact ⟨.lt, by rw [if_pos (by simp [he])]⟩
    · obtain ⟨o, ho⟩ := lsCmpTail_some a b hb
      exact ⟨o, by rw [if_neg (by simp [he])]; exact ho⟩
  · obtain ⟨o, ho⟩ := lsCmpTail_some a b hb
    exact ⟨o, by rw [if_neg hd]; exact ho⟩

/-- The insertion step succeeds on nonempty entries and permutes: its result
holds exactly the inserted element and the previous prefix. -/
theorem insRev_some (x : Str) (hx : x ≠ []) :
    ∀ acc : List Str, (∀ e ∈ acc, e ≠ []) →
    ∃ r, insRev x acc = some r ∧ ∀ y, (y ∈ r ↔ y = x ∨ y ∈ acc)
  | [], _ => ⟨[x], rfl, by simp⟩
  | e :: rest, hacc => by
    have he : e ≠ [] := hacc e (List.mem_cons_self _ _)
    obtain ⟨o, ho⟩ := lsCmp_some x e hx he
    simp only [insRev, ho]
    by_cases hlt : o = Ordering.lt
    · rw [if_pos (by simp [hlt])]
      obtain ⟨r, hr, hm⟩ :=
        insRev_some x hx rest (fun z hz => hacc z (List.mem_cons_of_mem _ hz))
      rw [hr]
      refine ⟨e :: r, rfl, fun y => ?_⟩
      rw [List.mem_cons, hm y, List.mem_cons]
      tauto
    · rw [if_neg (by simp [hlt])]
      refine ⟨x :: e :: rest, rfl, fun y => ?_⟩
      simp [List.mem_cons]

/-- The insertion-sort fold succeeds on nonempty entries and permutes. -/
theorem sortFold_some :
    ∀ (l acc : List Str), (∀ e ∈ l, e ≠ []) → (∀ e ∈ acc, e ≠ []) →
    ∃ r, sortFold l acc = some r ∧ ∀ y, (y ∈ r ↔ y ∈ acc ∨ y ∈ l)
  | [], acc, _, _ => ⟨acc.reverse, rfl, by simp⟩
  | x :: xs, acc, hl, hacc => by
    have hx : x ≠ [] := hl x (List.mem_cons_self _ _)
    obtain ⟨acc2, h2, hm2⟩ := insRev_some x hx acc hacc
    have hacc2 : ∀ e ∈ acc2, e ≠ [] := by
      intro e he
      rcases (hm2 e).mp he with rfl | hin
      · exact hx
      · exact hacc e hin
    obtain ⟨r, hr, hmr⟩ := sortFold_some xs acc2
      (fun z hz => hl z (List.mem_cons_of_mem _ hz)) hacc2
    refine ⟨r, ?_, fun y => ?_⟩
    · unfold sortFold
      rw [h2]
      exact hr
    · rw [hmr y, hm2 y, List.mem_cons]
      tauto

/-- `sort_by` succeeds on at most 20 nonempty entries (the insertion-sort
regime) and permutes. -/
theorem sortByRust_some {l : List Str} (hl : ∀ e ∈ l, e ≠ [])
    (hlen : l.length ≤ 20) :
    ∃ r, sortByRust l = some r ∧ ∀ y, (y ∈ r ↔ y ∈ l) := by
  obtain ⟨r, hr, hm⟩ := sortFold_some l [] hl (by simp)
  refine ⟨r, ?_, fun y => ?_⟩
  · unfold sortByRust
    rw [if_pos (by simp [hlen]), hr]
  · rw [hm y]
    simp

/-- The dedup closure answers (does not panic) on a nonempty retained
predecessor. -/
theorem dedupSame_some (y pred : Str) (hp : pred ≠ []) :
    ∃ v, dedupSame y pred = some v := by
  unfold dedupSame
  by_cases h1 : y = pred
  · exact ⟨true, by rw [if_pos (by simp [h1])]⟩
  · rw [if_neg (by simp [h1])]
    by_cases h2 : (isDirectory pred && !isDirectory y) = true
    · exact ⟨decide (pred.dropLast = y), by rw [if_pos h2, if_neg (by simp [hp])]⟩
    · exact ⟨false, by rw [if_neg h2]⟩

/-- A directory entry is only ever deduplicated against an equal retained
predecessor. -/
theorem dedupSame_true_dir {y p : Str} (hy : isDirectory y = true)
    (h : dedupSame y p = some true) : y = p := by
  unfold dedupSame at h
  by_cases h1 : y = p
  · exact h1
  · rw [if_neg (by simp [h1])] at h
    by_cases h2 : (isDirectory p && !isDirectory y) = true
    · rw [Bool.and_eq_true] at h2
      rw [hy] at h2
      simp at h2
    · rw [if_neg h2] at h
      simp at h

/-- The dedup tail succeeds on nonempty entries and keeps every directory
entry (or it equals the retained predecessor). -/
theorem dedupGo_some_mem :
    ∀ (ys : List Str) (pred : Str), (∀ e ∈ ys, e ≠ []) → pred ≠ [] →
    ∃ r, dedupGo pred ys = some r ∧
      ∀ y, isDirectory y = true → y ∈ ys → (y = pred ∨ y ∈ r)
  | [], pred, _, _ => ⟨[], rfl, by simp⟩
  | z :: zs, pred, hys, hp => by
    have hz : z ≠ [] := hys z (List.mem_cons_self _ _)
    have hzs : ∀ e ∈ zs, e ≠ [] := fun e he => hys e (List.mem_cons_of_mem _ he)
    obtain ⟨v, hv⟩ := dedupSame_some z pred hp
    unfold dedupGo
    rw [hv]
    cases v with
    | true =>
      obtain ⟨r, hr, hm⟩ := dedupGo_some_mem zs pred hzs hp
      refine ⟨r, hr, fun y hy hmem => ?_⟩
      rcases List.mem_cons.mp hmem with rfl | hin
      · exact Or.inl (dedupSame_true_dir hy hv)
      · exact hm y hy hin
    | false =>
      obtain ⟨r, hr, hm⟩ := dedupGo_some_mem zs z hzs hz
      rw [hr]
      refine ⟨z :: r, rfl, fun y hy hmem => ?_⟩
      rcases List.mem_cons.mp hmem with rfl | hin
      · exact Or.inr (List.mem_cons_self _ _)
      · rcases hm y hy hin with rfl | hin2
        · exact Or.inr (List.mem_cons_self _ _)
        · exact Or.inr (List.mem_cons_of_mem _ hin2)

/-- `dedup_by` succeeds on nonempty entries and keeps every directory entry
that was present. -/
theorem dedupByRust_some_mem :
    ∀ l : List Str, (∀ e ∈ l, e ≠ []) →
    ∃ r, dedupByRust l = some r ∧ ∀ y, isDirectory y = true → y ∈ l → y ∈ r
  | [], _ => ⟨[], rfl, by simp⟩
  | x :: xs, hl => by
    have hx : x ≠ [] := hl x (List.mem_cons_self _ _)
    obtain ⟨r, hr, hm⟩ := dedupGo_some_mem xs x
      (fun e he => hl e (List.mem_cons_of_mem _ he)) hx
    simp only [dedupByRust, hr]
    refine ⟨x :: r, rfl, fun y hy hmem => ?_⟩
    rcases List.mem_cons.mp hmem with rfl | hin
    · exact List.mem_cons_self _ _
    · rcases hm y hy hin with rfl | hin2
      · exact List.mem_cons_self _ _
      · exact List.mem_cons_of_mem _ hin2

/-- On a nonempty prefix argument `with_prefix_absolute` cannot panic and
agrees with the spec-side description. -/
theorem wpa_eq_spec (s o : Str) (h : o ≠ []) :
    withPrefixAbsolute s o = some (wpaSpec s o) := by
  unfold withPrefixAbsolute wpaSpec
  by_cases hd : isDirectory o
  · simp [hd, h]
  · simp [hd]

/-- A non-panicking result of `with_prefix_absolute` is the spec-side value. -/
theorem wpa_some_inv {s o : Str} {r : Option Str}
    (h : withPrefixAbsolute s o = some r) : r = wpaSpec s o := by
  by_cases ho : o = []
  · subst ho
    rw [show withPrefixAbsolute s [] = none from rfl] at h
    exact Option.noConfusion h
  · rw [wpa_eq_spec s o ho] at h
    exact (Option.some_inj.mp h).symm

/-- The `open` loop over a panic-free table computes the first decisive mount,
defaulting to NotFound. -/
theorem openGo_eq_findSome (path : Str) :
    ∀ l : Mounts, (∀ m ∈ l, m.1 ≠ ([] : Str)) →
    openGo path l = some ((l.findSome? (openDecisive path)).getD (.error .notFound))
  | [], _ => rfl
  | (pt, src) :: rest, h => by
    have hpt : pt ≠ [] := h (pt, src) (List.mem_cons_self _ _)
    have hrest : ∀ m ∈ rest, m.1 ≠ ([] : Str) :=
      fun m hm => h m (List.mem_cons_of_mem _ hm)
    have ih := openGo_eq_findSome path rest hrest
    rw [openGo, wpa_eq_spec path pt hpt, List.findSome?_cons]
    unfold openDecisive
    cases hw : wpaSpec path pt with
    | none => simpa using ih
    | some sfx =>
      cases ho : src.openF sfx with
      | ok v => simp [ho]
      | error e => cases e <;> simp [ho] <;> simpa using ih

/-- The `update` loop over a panic-free table computes the first decisive
mount, defaulting to ReadOnlyFilesystem. -/
theorem updateGo_eq_findSome (path : Str) (data : List Nat) :
    ∀ l : Mounts, (∀ m ∈ l, m.1 ≠ ([] : Str)) →
    updateGo path data l =
      some ((l.findSome? (updateDecisive path data)).getD (.error .readOnlyFilesystem))
  | [], _ => rfl
  | (pt, src) :: rest, h => by
    have hpt : pt ≠ [] := h (pt, src) (List.mem_cons_self _ _)
    have hrest : ∀ m ∈ rest, m.1 ≠ ([] : Str) :=
      fun m hm => h m (List.mem_cons_of_mem _ hm)
    have ih := updateGo_eq_findSome path data rest hrest
    rw [updateGo, wpa_eq_spec path pt hpt, List.findSome?_cons]
    unfold updateDecisive
    cases hw : wpaSpec path pt with
    | none => simpa using ih
    | some sfx =>
      cases hu : src.updateF sfx data with
      | ok v => simp [hu]
      | error e => cases e <;> simp [hu] <;> simpa using ih

/-! ## Behaviour of the `ls` traversal -/

/-- The descent step only grows the accumulator and never clears the success
flag. -/
theorem lsDescend_mono {src : VSource} {ds : Option Str} {st st1 : LsState}
    (h : lsDescend src ds st = .ok st1) :
    (∀ a, a ∈ st.acc → a ∈ st1.acc) ∧
    (st.anySucceeded = true → st1.anySucceeded = true) := by
  unfold lsDescend at h
  cases ds with
  | none =>
    cases h
    exact ⟨fun a ha => ha, fun x => x⟩
  | some sfx =>
    cases hs : src.lsF sfx with
    | ok x =>
      simp only [hs] at h
      cases h
      exact ⟨fun a ha => List.mem_append_left _ ha, fun _ => rfl⟩
    | error e =>
      simp only [hs] at h
      cases e with
      | notFound =>
        cases h
        exact ⟨fun a ha => ha, fun x => x⟩
      | notADirectory =>
        cases h
        exact ⟨fun a ha => ha, fun x => x⟩
      | isADirectory => exact Except.noConfusion h
      | readOnlyFilesystem => exact Except.noConfusion h
      | permissionDenied => exact Except.noConfusion h
      | other => exact Except.noConfusion h

/-- The ascent step only grows the accumulator and never clears the success
flag. -/
theorem lsAscend_mono {as2 : Option Str} {st1 st2 : LsState}
    (h : lsAscend as2 st1 = some st2) :
    (∀ a, a ∈ st1.acc → a ∈ st2.acc) ∧
    (st1.anySucceeded = true → st2.anySucceeded = true) := by
  unfold lsAscend at h
  cases as2 with
  | none =>
    cases h
    exact ⟨fun a ha => ha, fun x => x⟩
  | some sfx =>
    cases hc : (components sfx).head? with
    | none =>
      simp only [hc] at h
      cases h
      exact ⟨fun a ha => ha, fun x => x⟩
    | some c =>
      simp only [hc] at h
      by_cases hd : isDirectory c = true
      · rw [if_pos hd] at h
        exact Option.noConfusion h
      · rw [if_neg hd] at h
        cases h
        exact ⟨fun a ha => List.mem_append_left _ ha, fun _ => rfl⟩

/-- The whole `ls` loop only grows the accumulator and never clears the
success flag. -/
theorem lsGo_mono (path : Str) :
    ∀ (l : Mounts) (st st' : LsState), lsGo path l st = some (.ok st') →
    (∀ a, a ∈ st.acc → a ∈ st'.acc) ∧
    (st.anySucceeded = true → st'.anySucceeded = true)
  | [], st, st', h => by
    cases h
    exact ⟨fun a ha => ha, fun x => x⟩
  | (pt, src) :: rest, st, st', h => by
    cases hw : withPrefixAbsolute path pt with
    | none => simp only [lsGo, hw] at h; exact Option.noConfusion h
    | some ds =>
      simp only [lsGo, hw] at h
      cases hd : lsDescend src ds st with
      | error e =>
        simp only [hd] at h
        exact Except.noConfusion (Option.some_inj.mp h)
      | ok st1 =>
        simp only [hd] at h
        cases hw2 : withPrefixAbsolute pt path with
        | none => simp only [hw2] at h; exact Option.noConfusion h
        | some as2 =>
          simp only [hw2] at h
          cases ha : lsAscend as2 st1 with
          | none => simp only [ha] at h; exact Option.noConfusion h
          | some st2 =>
            simp only [ha] at h
            have m1 := lsDescend_mono hd
            have m2 := lsAscend_mono ha
            have m3 := lsGo_mono path rest st2 st' h
            exact ⟨fun a haa => m3.1 a (m2.1 a (m1.1 a haa)),
                   fun hx => m3.2 (m2.2 (m1.2 hx))⟩

/-- If a mount strictly below the listed path appears in the table and the
loop completes, the synthesized directory entry is in the accumulator and the
success flag is set. -/
theorem lsGo_phantom (path : Str) :
    ∀ (l : Mounts) (st st' : LsState) (pt : Str) (src : VSource) (sfx c : Str),
    (pt, src) ∈ l → wpaSpec pt path = some sfx →
    (components sfx).head? = some c →
    lsGo path l st = some (.ok st') →
    (c ++ ['/']) ∈ st'.acc ∧ st'.anySucceeded = true
  | [], st, st', pt, src, sfx, c, hm, _, _, _ => by simp at hm
  | (pt0, src0) :: rest, st, st', pt, src, sfx, c, hm, hws, hch, h => by
    cases hw : withPrefixAbsolute path pt0 with
    | none => simp only [lsGo, hw] at h; exact Option.noConfusion h
    | some ds =>
      simp only [lsGo, hw] at h
      cases hd : lsDescend src0 ds st with
      | error e =>
        simp only [hd] at h
        exact Except.noConfusion (Option.some_inj.mp h)
      | ok st1 =>
        simp only [hd] at h
        cases hw2 : withPrefixAbsolute pt0 path with
        | none => simp only [hw2] at h; exact Option.noConfusion h
        | some as2 =>
          simp only [hw2] at h
          cases ha : lsAscend as2 st1 with
          | none => simp only [ha] at h; exact Option.noConfusion h
          | some st2 =>
            simp only [ha] at h
            rcases List.mem_cons.mp hm with he | hmr
            · -- this is the mount in question
              have he1 : pt0 = pt := (congrArg Prod.fst he).symm
              subst he1
              have has2 : as2 = some sfx := by
                rw [wpa_some_inv hw2, hws]
              subst has2
              unfold lsAscend at ha
              simp only [hch] at ha
              by_cases hdc : isDirectory c = true
              · rw [if_pos hdc] at ha
                exact Option.noConfusion ha
              · rw [if_neg hdc] at ha
                cases ha
                have m3 := lsGo_mono path rest _ st' h
                refine ⟨m3.1 _ (List.mem_append_right _ (List.mem_cons_self _ _)), ?_⟩
                exact m3.2 rfl
            · exact lsGo_phantom path rest st2 st' pt src sfx c hmr hws hch h

/-- A benign source never aborts the descent step. -/
theorem lsDescend_total {src : VSource} (ds : Option Str) (st : LsState)
    (hb : ∀ q e, src.lsF q = .error e →
      e = ErrKind.notFound ∨ e = ErrKind.notADirectory) :
    ∃ st1, lsDescend src ds st = .ok st1 := by
  cases ds with
  | none => exact ⟨st, rfl⟩
  | some sfx =>
    cases hs : src.lsF sfx with
    | ok x => exact ⟨⟨st.acc ++ x, true, st.failedNotDir⟩, by simp [lsDescend, hs]⟩
    | error e =>
      rcases hb sfx e hs with rfl | rfl
      · exact ⟨st, by simp [lsDescend, hs]⟩
      · exact ⟨⟨st.acc, st.anySucceeded, true⟩, by simp [lsDescend, hs]⟩

/-- Over well-formed mount points and benign sources the `ls` loop neither
panics nor aborts. -/
theorem lsGo_total (path : Str) (hpath : isAbsolute path = true) :
    ∀ (l : Mounts) (st : LsState),
    (∀ m ∈ l, GoodPt m.1) →
    (∀ m ∈ l, ∀ q e, (m.2).lsF q = .error e →
      e = ErrKind.notFound ∨ e = ErrKind.notADirectory) →
    ∃ st', lsGo path l st = some (.ok st')
  | [], st, _, _ => ⟨st, rfl⟩
  | (pt, src) :: rest, st, hg, hb => by
    have hgpt : GoodPt pt := hg (pt, src) (List.mem_cons_self _ _)
    have hptne : pt ≠ [] := by
      intro hh
      have h1 := hgpt.1
      rw [hh] at h1
      simp [isAbsolute] at h1
    have hpathne : path ≠ [] := by
      intro hh
      rw [hh] at hpath
      simp [isAbsolute] at hpath
    obtain ⟨st1, hd⟩ := lsDescend_total (wpaSpec path pt) st
      (hb (pt, src) (List.mem_cons_self _ _))
    have hgr : ∀ m ∈ rest, GoodPt m.1 := fun m hm => hg m (List.mem_cons_of_mem _ hm)
    have hbr : ∀ m ∈ rest, ∀ q e, (m.2).lsF q = .error e →
        e = ErrKind.notFound ∨ e = ErrKind.notADirectory :=
      fun m hm => hb m (List.mem_cons_of_mem _ hm)
    have step : ∀ st2, lsAscend (wpaSpec pt path) st1 = some st2 →
        ∃ st', lsGo path ((pt, src) :: rest) st = some (.ok st') := by
      intro st2 ha
      obtain ⟨st', hrest⟩ := lsGo_total path hpath rest st2 hgr hbr
      refine ⟨st', ?_⟩
      simp only [lsGo, wpa_eq_spec path pt hptne, hd, wpa_eq_spec pt path hpathne, ha]
      exact hrest
    cases hA : wpaSpec pt path with
    | none =>
      exact step st1 (by rw [hA]; rfl)
    | some sfx =>
      cases hch : (components sfx).head? with
      | none =>
        refine step st1 ?_
        rw [hA]
        simp only [lsAscend, hch]
      | some c =>
        have h1 : sfx.head? = some '/' := wpaSpec_head hA
        have h2 : pt = path.dropLast ++ sfx := wpaSpec_strip hA
        have h3 : noDS sfx = true := by
          have := hgpt.2
          rw [h2] at this
          exact noDS_append_right _ _ this
        obtain ⟨hne, hnm⟩ := components_head_good h3 h1 hch
        have hdf : isDirectory c = false := isDirectory_false_of hne hnm
        refine step ⟨st1.acc ++ [c ++ ['/']], true, st1.failedNotDir⟩ ?_
        rw [hA]
        simp only [lsAscend, hch, hdf]
        simp

/-- Entry nonemptiness is preserved by the descent step when the source honors
the single-component contract. -/
theorem lsDescend_entries {src : VSource} {ds : Option Str} {st st1 : LsState}
    (h : lsDescend src ds st = .ok st1)
    (hsrc : ∀ q el, src.lsF q = .ok el → ∀ x ∈ el, x ≠ [])
    (hst : ∀ x ∈ st.acc, x ≠ []) : ∀ x ∈ st1.acc, x ≠ [] := by
  unfold lsDescend at h
  cases ds with
  | none =>
    cases h
    exact hst
  | some sfx =>
    cases hs : src.lsF sfx with
    | ok x =>
      simp only [hs] at h
      cases h
      intro z hz
      rcases List.mem_append.mp hz with hz1 | hz2
      · exact hst z hz1
      · exact hsrc sfx x hs z hz2
    | error e =>
      simp only [hs] at h
      cases e with
      | notFound => cases h; exact hst
      | notADirectory => cases h; exact hst
      | isADirectory => exact Except.noConfusion h
      | readOnlyFilesystem => exact Except.noConfusion h
      | permissionDenied => exact Except.noConfusion h
      | other => exact Except.noConfusion h

/-- Entry nonemptiness is preserved by the ascent step: the synthesized entry
ends in `/` and is nonempty. -/
theorem lsAscend_entries {as2 : Option Str} {st1 st2 : LsState}
    (h : lsAscend as2 st1 = some st2)
    (hst : ∀ x ∈ st1.acc, x ≠ []) : ∀ x ∈ st2.acc, x ≠ [] := by
  unfold lsAscend at h
  cases as2 with
  | none =>
    cases h
    exact hst
  | some sfx =>
    cases hc : (components sfx).head? with
    | none =>
      simp only [hc] at h
      cases h
      exact hst
    | some c =>
      simp only [hc] at h
      by_cases hd : isDirectory c = true
      · rw [if_pos hd] at h
        exact Option.noConfusion h
      · rw [if_neg hd] at h
        cases h
        intro z hz
        rcases List.mem_append.mp hz with hz1 | hz2
        · exact hst z hz1
        · rw [List.mem_singleton.mp hz2]
          simp

/-- Entry nonemptiness is preserved by the whole `ls` loop over
contract-honoring sources. -/
theorem lsGo_entries (path : Str) :
    ∀ (l : Mounts) (st st' : LsState),
    (∀ m ∈ l, ∀ q el, (m.2).lsF q = .ok el → ∀ x ∈ el, x ≠ []) →
    lsGo path l st = some (.ok st') →
    (∀ x ∈ st.acc, x ≠ []) → ∀ x ∈ st'.acc, x ≠ []
  | [], st, st', _, h, hst => by
    cases h
    exact hst
  | (pt, src) :: rest, st, st', hne, h, hst => by
    cases hw : withPrefixAbsolute path pt with
    | none => simp only [lsGo, hw] at h; exact Option.noConfusion h
    | some ds =>
      simp only [lsGo, hw] at h
      cases hd : lsDescend src ds st with
      | error e =>
        simp only [hd] at h
        exact Except.noConfusion (Option.some_inj.mp h)
      | ok st1 =>
        simp only [hd] at h
        cases hw2 : withPrefixAbsolute pt path with
        | none => simp only [hw2] at h; exact Option.noConfusion h
        | some as2 =>
          simp only [hw2] at h
          cases ha : lsAscend as2 st1 with
          | none => simp only [ha] at h; exact Option.noConfusion h
          | some st2 =>
            simp only [ha] at h
            have e1 := lsDescend_entries hd
              (hne (pt, src) (List.mem_cons_self _ _)) hst
            have e2 := lsAscend_entries ha e1
            exact lsGo_entries path rest st2 st'
              (fun m hm => hne m (List.mem_cons_of_mem _ hm)) h e2

/-- The descent step adds at most `k` entries when every listing of the source
has at most `k` entries. -/
theorem lsDescend_length {src : VSource} {ds : Option Str} {st st1 : LsState}
    {k : Nat} (h : lsDescend src ds st = .ok st1)
    (hsrc : ∀ q el, src.lsF q = .ok el → el.length ≤ k) :
    st1.acc.length ≤ st.acc.length + k := by
  unfold lsDescend at h
  cases ds with
  | none =>
    cases h
    omega
  | some sfx =>
    cases hs : src.lsF sfx with
    | ok x =>
      simp only [hs] at h
      cases h
      have := hsrc sfx x hs
      simp only [List.length_append]
      omega
    | error e =>
      simp only [hs] at h
      cases e with
      | notFound => cases h; exact Nat.le_add_right _ _
      | notADirectory => cases h; exact Nat.le_add_right _ _
      | isADirectory => exact Except.noConfusion h
      | readOnlyFilesystem => exact Except.noConfusion h
      | permissionDenied => exact Except.noConfusion h
      | other => exact Except.noConfusion h

/-- The ascent step adds at most one entry. -/
theorem lsAscend_length {as2 : Option Str} {st1 st2 : LsState}
    (h : lsAscend as2 st1 = some st2) :
    st2.acc.length ≤ st1.acc.length + 1 := by
  unfold lsAscend at h
  cases as2 with
  | none =>
    cases h
    omega
  | some sfx =>
    cases hc : (components sfx).head? with
    | none =>
      simp only [hc] at h
      cases h
      omega
    | some c =>
      simp only [hc] at h
      by_cases hd : isDirectory c = true
      · rw [if_pos hd] at h
        exact Option.noConfusion h
      · rw [if_neg hd] at h
        cases h
        simp only [List.length_append, List.length_singleton]
        omega

/-- The whole `ls` loop accumulates at most `k + 1` entries per mount: the
listing stays within the insertion-sort regime whenever
`(k + 1) * |mounts|` does. -/
theorem lsGo_length (path : Str) {k : Nat} :
    ∀ (l : Mounts) (st st' : LsState),
    (∀ m ∈ l, ∀ q el, (m.2).lsF q = .ok el → el.length ≤ k) →
    lsGo path l st = some (.ok st') →
    st'.acc.length ≤ st.acc.length + (k + 1) * l.length
  | [], st, st', _, h => by
    cases h
    simp
  | (pt, src) :: rest, st, st', hk, h => by
    cases hw : withPrefixAbsolute path pt with
    | none => simp only [lsGo, hw] at h; exact Option.noConfusion h
    | some ds =>
      simp only [lsGo, hw] at h
      cases hd : lsDescend src ds st with
      | error e =>
        simp only [hd] at h
        exact Except.noConfusion (Option.some_inj.mp h)
      | ok st1 =>
        simp only [hd] at h
        cases hw2 : withPrefixAbsolute pt path with
        | none => simp only [hw2] at h; exact Option.noConfusion h
        | some as2 =>
          simp only [hw2] at h
          cases ha : lsAscend as2 st1 with
          | none => simp only [ha] at h; exact Option.noConfusion h
          | some st2 =>
            simp only [ha] at h
            have l1 := lsDescend_length hd (hk (pt, src) (List.mem_cons_self _ _))
            have l2 := lsAscend_length ha
            have l3 := lsGo_length path rest st2 st'
              (fun m hm => hk m (List.mem_cons_of_mem _ hm)) h
            have hstep : st2.acc.length ≤ st.acc.length + (k + 1) := by omega
            calc st'.acc.length
                ≤ st2.acc.length + (k + 1) * rest.length := l3
              _ ≤ (st.acc.length + (k + 1)) + (k + 1) * rest.length :=
                  Nat.add_le_add_right hstep _
              _ = st.acc.length + (k + 1) * ((pt, src) :: rest).length := by
                  simp only [List.length_cons]
                  ring

/-! ## The claims -/

/-- C1: a source may legally return the single-component names `X`, `X-` and
`X/` together; the engine listing then keeps the file entry `X` even though
the directory entry `X/` is present, because the sort comparator is not
transitive on this triple (`X/ < X`, `X < X-`, `X- < X/`) so the colliding
pair is never adjacent when the dedup scan runs.  This contradicts both the
claim and the code's own comment ("In cases where \x22foo\x22 and \x22foo/\x22
both exist, remove \x22foo\x22"). -/
theorem ls_keeps_file_beside_dir_entry :
    vfsLs xMounts "/".data = some (.ok ["X".data, "X-".data, "X/".data])
    ∧ "X".data ∈ ["X".data, "X-".data, "X/".data]
    ∧ "X/".data ∈ ["X".data, "X-".data, "X/".data]
    ∧ isDirectory "X/".data = true ∧ isDirectory "X".data = false :=
  ⟨rfl, by decide, by decide, rfl, rfl⟩

/-- C2: `try_from_str` accepts `"a//b"` unchanged — an interior `//` produces
an empty component, and the empty component passes all four validation
patterns, so only the exact input `"//"` is rejected.  This contradicts the
claim and the code's own documentation ("A path component MUST contain at
least one character"). -/
theorem try_from_str_accepts_interior_double_slash :
    tryFromStr "a//b".data = .ok "a//b".data
    ∧ tryFromStr "//".data = .error PathFromStrError.doubleSlash :=
  ⟨rfl, rfl⟩

/-- C3 counterexample: listing the absolute file path `/a` on an engine yields
the kind Other (the "attempt to list a file" misuse error), not
NotADirectory as the claim states. -/
theorem ls_file_path_kind_counterexample :
    vfsLs [] "/a".data = some (.error ErrKind.other)
    ∧ ErrKind.other ≠ ErrKind.notADirectory :=
  ⟨rfl, fun h => nomatch h⟩

/-- C3 amended: for every mount table and absolute file-typed path, the
engine's `ls` fails with the Other (misuse) error kind — the NotADirectory
kind is reserved for the sticky all-claims-said-NotADirectory outcome. -/
theorem ls_file_path_reports_other :
    ∀ (ms : Mounts) (path : Str), isAbsolute path = true → isDirectory path = false →
    vfsLs ms path = some (.error ErrKind.other) := by
  intro ms path h1 h2
  unfold vfsLs
  simp [h1, h2]

/-- Witness for C3 amended at `/b` on the empty table. -/
theorem ls_file_path_reports_other_witness :
    vfsLs [] "/b".data = some (.error ErrKind.other) :=
  ls_file_path_reports_other [] "/b".data (by decide) (by decide)

/-- C4: on any table of nonempty mount points, `open` equals the spec's
traversal — newest mount first, delegate wherever the point claims the path,
return the first success, fall through NotFound, surface other errors, and
default to NotFound; and in the two-source scenario (A then B at `/`, both
holding `/foo`) it is B's file that is returned. -/
theorem open_matches_spec_traversal :
    (∀ (ms : Mounts) (path : Str), (∀ m ∈ ms, m.1 ≠ ([] : Str)) →
      vfsOpen ms path = openPerSpec ms path)
    ∧ vfsOpen openABMounts "/foo".data = some (.ok "foo from B".data) := by
  constructor
  · intro ms path h
    unfold vfsOpen openPerSpec
    by_cases h1 : isAbsolute path
    · by_cases h2 : isDirectory path
      · simp [h1, h2]
      · simp only [h1, h2, Bool.not_true, Bool.not_false, if_false, if_true]
        exact openGo_eq_findSome path ms.reverse
          (fun m hm => h m (List.mem_reverse.mp hm))
    · simp [h1]
  · rfl

/-- Witness for C4 on the two-source scenario table. -/
theorem open_matches_spec_traversal_witness :
    vfsOpen openABMounts "/foo".data = openPerSpec openABMounts "/foo".data :=
  open_matches_spec_traversal.1 openABMounts "/foo".data (by decide)

/-- C5: on any table of nonempty mount points, `update` equals the spec's
traversal — newest mount first, falling through only on ReadOnlyFilesystem,
returning any other terminal result of the newest claiming mount immediately,
and defaulting to ReadOnlyFilesystem.  Concretely: with a NotFound-updating
source mounted before a read-only source at `/`, the read-only (newest) mount
falls through and the NotFound is returned with no further fallback; with no
mounts at all the result is ReadOnlyFilesystem. -/
theorem update_matches_spec_traversal :
    (∀ (ms : Mounts) (path : Str) (data : List Nat), (∀ m ∈ ms, m.1 ≠ ([] : Str)) →
      vfsUpdate ms path data = updatePerSpec ms path data)
    ∧ vfsUpdate updMounts "/foo".data [1] = some (.error ErrKind.notFound)
    ∧ vfsUpdate [] "/foo".data [1] = some (.error ErrKind.readOnlyFilesystem) := by
  refine ⟨?_, rfl, rfl⟩
  intro ms path data h
  unfold vfsUpdate updatePerSpec
  by_cases h1 : isAbsolute path
  · by_cases h2 : isDirectory path
    · simp [h1, h2]
    · simp only [h1, h2, Bool.not_true, Bool.not_false, if_false, if_true]
      exact updateGo_eq_findSome path data ms.reverse
        (fun m hm => h m (List.mem_reverse.mp hm))
  · simp [h1]

/-- Witness for C5 on the update scenario table. -/
theorem update_matches_spec_traversal_witness :
    vfsUpdate updMounts "/foo".data [1] = updatePerSpec updMounts "/foo".data [1] :=
  update_matches_spec_traversal.1 updMounts "/foo".data [1] (by decide)

/-- C7: normalization is not idempotent — `try_from_str("../.")` succeeds with
canonical text `".."` (the build appends `"../"` and then pops the trailing
slash because the input was file-typed), but re-parsing `".."` fails with
DotDotFile, contradicting the claimed idempotence invariant and the
validator's own rejection of trailing `..`. -/
theorem normalize_not_idempotent_dotdot_dot :
    tryFromStr "../.".data = .ok "..".data
    ∧ tryFromStr "..".data = .error PathFromStrError.dotDotFile :=
  ⟨rfl, rfl⟩

/-- C8 counterexample: `parent("/")` is the empty path, not `"/"` itself as
the claim states. -/
theorem parent_of_root_counterexample :
    parent "/".data = "".data ∧ "".data ≠ "/".data :=
  ⟨rfl, by decide⟩

/-- C8 amended: `parent` strips any trailing `/` run and then strips back to
the previous `/` retaining it, on every path; the empty path returns itself,
while the root path `/` returns the empty path (not itself). -/
theorem parent_strips_back_to_slash :
    (∀ p : Str, parent p = parentSpec p)
    ∧ parent "".data = "".data ∧ parent "/".data = "".data := by
  refine ⟨?_, rfl, rfl⟩
  intro p
  unfold parent parentSpec trimEndM
  rw [List.reverse_reverse]

/-- C9: `extension` of a path whose last component contains no dot returns
the whole component, not none — Rust's `split('.').last()` on a dot-less
string yields the string itself.  The dotted case and the component-less case
behave as documented. -/
theorem extension_of_dotless_component :
    extension "/foo".data = some "foo".data
    ∧ extension "/a/b.c".data = some "c".data
    ∧ extension "".data = none :=
  ⟨rfl, rfl, rfl⟩

/-- C10: `with_prefix_absolute` returns without panicking for every nonempty
directory prefix argument; on the empty path (a valid relative directory) the
`other.len()-1` computation underflows and the call panics; the engine keeps
that case unreachable because `mount` rejects the empty, non-absolute mount
point with an Other error. -/
theorem with_prefix_absolute_totality :
    (∀ s o : Str, o ≠ [] → isDirectory o = true →
      ∃ r, withPrefixAbsolute s o = some r)
    ∧ (∀ s : Str, withPrefixAbsolute s [] = none)
    ∧ (∀ (ms : Mounts) (src : VSource), vfsMount ms [] src = .error .other) := by
  refine ⟨?_, ?_, ?_⟩
  · intro s o h _
    exact ⟨wpaSpec s o, wpa_eq_spec s o h⟩
  · intro s
    rfl
  · intro ms src
    rfl

/-- Witness for C10's totality part at `/foo/bar` under the prefix `/foo/`. -/
theorem with_prefix_absolute_totality_witness :
    ∃ r, withPrefixAbsolute "/foo/bar".data "/foo/".data = some r :=
  with_prefix_absolute_totality.1 "/foo/bar".data "/foo/".data (by decide) (by decide)

/-- C6: whenever any mount's point lies strictly below a listed absolute
directory path (its remainder below the path has a first component `c`), and
the table is well-formed with contract-honoring sources — benign failures
(only NotFound or NotADirectory), listings made of nonempty single-component
entries, and listing sizes keeping the accumulated run inside the
insertion-sort regime the model covers exactly — the engine's `ls` succeeds
and its result contains the synthesized directory entry `c ++ "/"`, even when
no source physically contains that directory; concretely, with A at `/` and B
at `/plugins/fnord/`, `ls("/")` lists the synthesized `plugins/` and
`ls("/plugins/")` is exactly `["fnord/"]`. -/
theorem ls_synthesizes_phantom_dirs :
    (∀ (ms : Mounts) (path pt : Str) (src : VSource) (sfx c : Str) (k : Nat),
      isAbsolute path = true → isDirectory path = true →
      (∀ m ∈ ms, GoodPt m.1) →
      (∀ m ∈ ms, ∀ q e, (m.2).lsF q = .error e →
        e = ErrKind.notFound ∨ e = ErrKind.notADirectory) →
      (∀ m ∈ ms, ∀ q el, (m.2).lsF q = .ok el → ∀ x ∈ el, x ≠ []) →
      (∀ m ∈ ms, ∀ q el, (m.2).lsF q = .ok el → el.length ≤ k) →
      (k + 1) * ms.length ≤ 20 →
      (pt, src) ∈ ms →
      wpaSpec pt path = some sfx →
      (components sfx).head? = some c →
      ∃ l, vfsLs ms path = some (.ok l) ∧ (c ++ ['/']) ∈ l)
    ∧ vfsLs s5Mounts "/".data = some (.ok ["bar/".data, "foo".data, "plugins/".data])
    ∧ vfsLs s5Mounts "/plugins/".data = some (.ok ["fnord/".data])
    ∧ vfsLs s5Mounts "/plugins/fnord/bar/".data = some (.ok ["bang".data]) := by
  refine ⟨?_, rfl, rfl, rfl⟩
  intro ms path pt src sfx c k h1 h2 hg hb hne hk hsz hm hws hch
  obtain ⟨st', hgo⟩ := lsGo_total path h1 ms ⟨[], false, false⟩ hg hb
  obtain ⟨hmem, hsucc⟩ :=
    lsGo_phantom path ms ⟨[], false, false⟩ st' pt src sfx c hm hws hch hgo
  have hacc_ne : ∀ x ∈ st'.acc, x ≠ [] :=
    lsGo_entries path ms ⟨[], false, false⟩ st' hne hgo (by simp)
  have hacc_len : st'.acc.length ≤ 20 := by
    have := lsGo_length path ms ⟨[], false, false⟩ st' hk hgo
    simp only [List.length_nil] at this
    omega
  obtain ⟨sorted, hsort, hsmem⟩ := sortByRust_some hacc_ne hacc_len
  have hsorted_ne : ∀ e ∈ sorted, e ≠ [] := fun e he => hacc_ne e ((hsmem e).mp he)
  obtain ⟨dd, hdd, hddmem⟩ := dedupByRust_some_mem sorted hsorted_ne
  refine ⟨dd, ?_, ?_⟩
  · unfold vfsLs
    simp only [h1, h2, hgo, hsucc, hsort, hdd, Bool.not_true, Bool.false_eq_true,
      if_false]
  · exact hddmem _ (isDirectory_concat_slash c) ((hsmem _).mpr hmem)

/-- Witness for C6 at scenario S5: listing `/plugins/` contains the
synthesized `fnord/`. -/
theorem ls_synthesizes_phantom_dirs_witness :
    ∃ l, vfsLs s5Mounts "/plugins/".data = some (.ok l) ∧
      ("fnord".data ++ ['/']) ∈ l :=
  ls_synthesizes_phantom_dirs.1 s5Mounts "/plugins/".data "/plugins/fnord/".data
    srcB5 "/fnord/".data "fnord".data 2 (by decide) (by decide)
    (by decide)
    (by
      intro m hm q e h
      rcases List.mem_cons.mp hm with rfl | hm2
      · simp only [srcA5] at h
        split at h
        · exact Except.noConfusion h
        · split at h
          · exact Except.noConfusion h
          · cases h
            exact Or.inl rfl
      · rcases List.mem_cons.mp hm2 with rfl | hm3
        · simp only [srcB5] at h
          split at h
          · exact Except.noConfusion h
          · split at h
            · exact Except.noConfusion h
            · cases h
              exact Or.inl rfl
        · simp at hm3)
    (by
      intro m hm q el h
      rcases List.mem_cons.mp hm with rfl | hm2
      · simp only [srcA5] at h
        split at h
        · cases h
          decide
        · split at h
          · cases h
            decide
          · exact Except.noConfusion h
      · rcases List.mem_cons.mp hm2 with rfl | hm3
        · simp only [srcB5] at h
          split at h
          · cases h
            decide
          · split at h
            · cases h
              decide
            · exact Except.noConfusion h
        · simp at hm3)
    (by
      intro m hm q el h
      rcases List.mem_cons.mp hm with rfl | hm2
      · simp only [srcA5] at h
        split at h
        · cases h
          decide
        · split at h
          · cases h
            decide
          · exact Except.noConfusion h
      · rcases List.mem_cons.mp hm2 with rfl | hm3
        · simp only [srcB5] at h
          split at h
          · cases h
            decide
          · split at h
            · cases h
              decide
            · exact Except.noConfusion h
        · simp at hm3)
    (by decide)
    (List.mem_cons_of_mem _ (List.mem_cons_self _ _))
    (by decide) (by decide)

end PsiloVFS
